import Mathlib

/-!
Verification development for the adaptive chunking pipeline of the
knowledge-mining-agent repository.

The Python sources are shallowly embedded:

* Python strings are modelled as `List Char` (`Text`), so slicing is
  `List.take`/`List.drop` and substring containment is `List.IsInfix`.
  The model covers the ASCII fragment of the Python regexes (`\w`, `\s`,
  `re.IGNORECASE`); every concrete input used below is ASCII.
* External collaborators (the tiktoken tokenizer, the langchain
  recursive/semantic/parent splitters, the vector store) are parameters
  (`Collab`, `VectorStore`): the repository only observes them through the
  calls modelled here.
* Fallible Python code (`try`/`except`, `KeyError`) is modelled with
  `Option`/`Except`.

All recursion is structural (several scanners take an explicit fuel that is
at least `length + 1`; each step of those scanners consumes at least one
character of the remaining input, so the fuel is never exhausted), which
keeps every definition evaluable by `decide`/`rfl`.
-/

namespace KMA

/-- Python `str` as a list of characters (code points). -/
abbrev Text := List Char

/-- The apostrophe character, written via its code so that it can appear in
the modelled pattern literals. -/
def apos : Char := Char.ofNat 39

/-- Python `\w` on the ASCII fragment: alphanumerics and underscore. -/
def isWordChar (c : Char) : Bool := c.isAlphanum || c = '_'

/-- Python `\s` on the ASCII fragment. -/
def isSpaceChar (c : Char) : Bool :=
  c = ' ' || c = '\t' || c = '\n' || c = '\r' || c = Char.ofNat 11 || c = Char.ofNat 12

/-- Characters kept by `re.sub(r'[^\w\s.,!?-]', '', text)`
(data_preprocessing.py line 93). -/
def keepChar (c : Char) : Bool :=
  isWordChar c || isSpaceChar c || c = '.' || c = ',' || c = '!' || c = '?' || c = '-'

/-- Step 1 of `_preprocess_text`: drop every character outside the kept set.
The regex matches single characters of the complement class and `re.sub`
deletes each of them. -/
def removeSpecial (t : Text) : Text := t.filter keepChar

/-- Scanner for `re.sub(r'\s+', ' ', text)` (line 96): a maximal run of
whitespace becomes a single space.  `inRun` records whether the previous
character was part of a whitespace run already replaced. -/
def collapseWSAux : Bool → Text → Text
  | _, [] => []
  | inRun, c :: cs =>
    if isSpaceChar c then
      if inRun then collapseWSAux true cs else ' ' :: collapseWSAux true cs
    else c :: collapseWSAux false cs

/-- Python `re.sub(r'\s+', ' ', text)`. -/
def collapseWS (t : Text) : Text := collapseWSAux false t

/-- Python `str.strip()` (whitespace on both ends). -/
def pyStrip (t : Text) : Text :=
  ((t.dropWhile isSpaceChar).reverse.dropWhile isSpaceChar).reverse

/-- Match `\s+` at the head: consumes the maximal whitespace run (the
following regex atom starts with a word character, so the greedy run is the
only viable choice). -/
def eatSpaces : Text → Option Text
  | [] => none
  | c :: cs => if isSpaceChar c then some (cs.dropWhile isSpaceChar) else none

/-- Drop maximal leading copies of `w` (the greedy `\1+`).  Fuel is the
length of the scanned text; each step removes at least one character since
`w` is non-empty whenever a copy is dropped. -/
def dropCopiesAux (w : Text) : Nat → Text → Text
  | 0, t => t
  | fuel+1, t =>
    if !w.isEmpty && w.isPrefixOf t then dropCopiesAux w fuel (t.drop w.length)
    else t

/-- Drop maximal leading copies of `w`. -/
def dropCopies (w t : Text) : Text := dropCopiesAux w t.length t

/-- The closing `\b` of the repeated-word pattern: the previous character is
a word character, so the boundary holds iff the input is exhausted or the
next character is not a word character. -/
def boundaryAfterWord : Text → Bool
  | [] => true
  | c :: _ => !isWordChar c

/-- Attempt to match `\b(\w+)\s+\1\s+\1+\b` (line 99) at the start of `t`,
where `prevWord` says whether the character before `t` is a word character.
Returns the capture (the replacement `\1`) and the remaining text.

The backtracking of the Python engine collapses to a deterministic match
here: the greedy `(\w+)` must take the whole word run (a shorter capture
leaves a word character where `\s+` must match), each `\s+` must take the
whole whitespace run (the following `\1` starts with a word character), and
`\1+` must take all contiguous copies (stopping earlier leaves a word
character where `\b` must hold). -/
def tryRepMatch (prevWord : Bool) (t : Text) : Option (Text × Text) :=
  if prevWord then none
  else
    let run := t.takeWhile isWordChar
    if run.isEmpty then none
    else
      match eatSpaces (t.drop run.length) with
      | none => none
      | some r2 =>
        if run.isPrefixOf r2 then
          match eatSpaces (r2.drop run.length) with
          | none => none
          | some r4 =>
            if run.isPrefixOf r4 then
              let rest := dropCopies run r4
              if boundaryAfterWord rest then some (run, rest) else none
            else none
        else none

/-- Left-to-right non-overlapping substitution for the repeated-word
pattern, replacement `\1`.  After a replacement the scan resumes at the end
of the match; the character before that position is the last character of a
copy of the capture, hence a word character. -/
def repSubAux : Nat → Bool → Text → Text
  | 0, _, t => t
  | fuel+1, prevWord, t =>
    match tryRepMatch prevWord t with
    | some (w, rest) => w ++ repSubAux fuel true rest
    | none =>
      match t with
      | [] => []
      | c :: cs => c :: repSubAux fuel (isWordChar c) cs

/-- Step 3 of `_preprocess_text`:
`re.sub(r'\b(\w+)\s+\1\s+\1+\b', r'\1', text)`. -/
def repSub (t : Text) : Text := repSubAux (t.length + 1) false t

/-- Lower-case a text (ASCII, for `re.IGNORECASE`). -/
def toLowerT (t : Text) : Text := t.map Char.toLower

/-- Case-insensitive check that the (lower-case) literal `p` occurs at the
start of `t`. -/
def ciPrefixOf (p t : Text) : Bool := toLowerT (t.take p.length) == p

/-- Alternatives of the first intro pattern (line 104), in order. -/
def introPhrases1 : List Text :=
  [String.toList "welcome back", String.toList "hey everyone",
   String.toList "what" ++ [apos] ++ String.toList "s up",
   String.toList "hello everyone"]

/-- The character class of the lookahead `(?=[\.!?])`. -/
def isPunctStop (c : Char) : Bool := c = '.' || c = '!' || c = '?'

/-- Lazy `.*?(?=[\.!?])`: find the shortest (possibly empty) extension, not
crossing a newline (`.` does not match `\n`), whose next character is one of
`. ! ?`.  Returns the remaining text starting at the unconsumed lookahead
character. -/
def seekPunct : Text → Option Text
  | [] => none
  | c :: cs => if isPunctStop c then some (c :: cs) else if c = '\n' then none else seekPunct cs

/-- Try the alternatives of the first intro pattern at the current position
(which the caller guarantees to be a `^` position); regex alternation falls
through to the next alternative when the lookahead search fails. -/
def tryIntro1 : List Text → Text → Option Text
  | [], _ => none
  | p :: ps, t =>
    if ciPrefixOf p t then
      match seekPunct (t.drop p.length) with
      | some rest => some rest
      | none => tryIntro1 ps t
    else tryIntro1 ps t

/-- Scanner for `re.sub` of the first intro pattern with
`re.IGNORECASE | re.MULTILINE`: `^` matches at position 0 and after each
newline (`atStart`). The matched text is removed. A match never ends right
after a newline (neither the phrases nor `.*?` contain one), so scanning
resumes with `atStart := false`. -/
def intro1Aux : Nat → Bool → Text → Text
  | 0, _, t => t
  | fuel+1, atStart, t =>
    match (if atStart then tryIntro1 introPhrases1 t else none) with
    | some rest => intro1Aux fuel false rest
    | none =>
      match t with
      | [] => []
      | c :: cs => c :: intro1Aux fuel (c == '\n') cs

/-- First intro-pattern substitution of `_preprocess_text`. -/
def intro1Sub (t : Text) : Text := intro1Aux (t.length + 1) true t

/-- Lookahead literals of the second intro pattern (line 105), lower-cased. -/
def introLookaheads2 : List Text :=
  [String.toList "we" ++ [apos] ++ String.toList "re going to",
   String.toList "i" ++ [apos] ++ String.toList "m going to",
   String.toList "let" ++ [apos] ++ String.toList "s talk about"]

/-- Does one of the literals occur (case-insensitively) at the start? -/
def anyCiPrefix (ps : List Text) (t : Text) : Bool := ps.any (fun p => ciPrefixOf p t)

/-- Lazy `.*?(?=we're going to|I'm going to|let's talk about)`: shortest
extension, not crossing a newline, after which one of the literals starts. -/
def seekLookahead : Text → Option Text
  | [] => none
  | c :: cs =>
    if anyCiPrefix introLookaheads2 (c :: cs) then some (c :: cs)
    else if c = '\n' then none
    else seekLookahead cs

/-- The literal `today`. -/
def todayLit : Text := String.toList "today"

/-- Try the second intro pattern `^(today.*?(?=...))` at a `^` position. -/
def tryIntro2 (t : Text) : Option Text :=
  if ciPrefixOf todayLit t then seekLookahead (t.drop todayLit.length) else none

/-- Scanner for `re.sub` of the second intro pattern (same conventions as
`intro1Aux`). -/
def intro2Aux : Nat → Bool → Text → Text
  | 0, _, t => t
  | fuel+1, atStart, t =>
    match (if atStart then tryIntro2 t else none) with
    | some rest => intro2Aux fuel false rest
    | none =>
      match t with
      | [] => []
      | c :: cs => c :: intro2Aux fuel (c == '\n') cs

/-- Second intro-pattern substitution of `_preprocess_text`. -/
def intro2Sub (t : Text) : Text := intro2Aux (t.length + 1) true t

/-- Alternatives of the outro pattern (line 112), in order. -/
def outroPhrases : List Text :=
  [String.toList "thanks for watching", String.toList "subscribe",
   String.toList "like and subscribe", String.toList "see you next time"]

/-- Try the outro pattern `(alt).*$` at the current position: if an
alternative matches, `.*` greedily consumes to the end of the line and the
multiline `$` matches there; the remainder starts at the newline (or is
empty). -/
def tryOutro : List Text → Text → Option Text
  | [], _ => none
  | p :: ps, t =>
    if ciPrefixOf p t then some ((t.drop p.length).dropWhile (fun c => c != '\n'))
    else tryOutro ps t

/-- Scanner for `re.sub` of the outro pattern (unanchored, leftmost first). -/
def outroAux : Nat → Text → Text
  | 0, t => t
  | fuel+1, t =>
    match tryOutro outroPhrases t with
    | some rest => outroAux fuel rest
    | none =>
      match t with
      | [] => []
      | c :: cs => c :: outroAux fuel cs

/-- Outro-pattern substitution of `_preprocess_text`. -/
def outroSub (t : Text) : Text := outroAux (t.length + 1) t

/-- Model of `BusinessContentPreprocessor._preprocess_text`
(data_preprocessing.py lines 90-117): character filter, whitespace
collapse + strip, repeated-word collapse, the two intro substitutions, the
outro substitution, final strip. -/
def preprocess_text (t : Text) : Text :=
  pyStrip (outroSub (intro2Sub (intro1Sub (repSub (pyStrip (collapseWS (removeSpecial t)))))))

/-! ## Data model: metadata dictionaries, documents, collaborators -/

/-- Metadata values occurring in the pipeline: strings, integers and the
`child_indices` integer lists. -/
inductive Val where
  | s (v : String)
  | n (v : Nat)
  | ns (v : List Nat)
deriving DecidableEq, Repr

/-- A Python dict with string keys, as an association list with unique keys
(maintained by `dset`). -/
abbrev Dict := List (String × Val)

/-- Python `d[k] = v`: replace in place, else append (dict insertion order). -/
def dset : Dict → String → Val → Dict
  | [], k, v => [(k, v)]
  | (k', v') :: rest, k, v =>
    if k' = k then (k, v) :: rest else (k', v') :: dset rest k v

/-- Python `d.get(k)`. -/
def dget : Dict → String → Option Val
  | [], _ => none
  | (k', v') :: rest, k => if k' = k then some v' else dget rest k

/-- Python `d.update({...})`: set each key of the literal in order. -/
def dupdate (d : Dict) (kvs : List (String × Val)) : Dict :=
  kvs.foldl (fun acc kv => dset acc kv.1 kv.2) d

/-- A langchain `Document`: page content plus metadata. -/
structure Document where
  page_content : Text
  metadata : Dict
deriving DecidableEq, Repr

/-- The external collaborators of the preprocessor, as the pipeline observes
them: the tiktoken token counter (`_count_tokens`), the langchain
`RecursiveCharacterTextSplitter.split_text`, the semantic chunker's
`split_text` (`none` models a raised exception), and the parent
`TokenTextSplitter.split_text`. -/
structure Collab where
  tok : Text → Nat
  recursiveSplit : Text → List Text
  semanticSplit : Text → Option (List Text)
  parentSplit : Text → List Text

/-- The configuration stored on `BusinessContentPreprocessor` by
`__init__`: `semanticChunker` records whether `self.semantic_chunker` is
non-None (i.e. refinement requested and the experimental package
available). -/
structure Config where
  maxChunkSize : Nat
  minChunkSize : Nat
  chunkOverlap : Nat
  useSemanticRefinement : Bool
  semanticChunker : Bool
  useHierarchy : Bool
deriving DecidableEq, Repr

/-- Model of `BusinessContentPreprocessor.__init__` (lines 32-79).  The
repository code performs no validation of its own; the only
construction-time failures come from the external langchain splitter
constructors, which raise `ValueError` when `chunk_overlap` exceeds
`chunk_size` (the recursive splitter is built with `4*max_chunk_size`
characters and `4*chunk_overlap` characters, the parent splitter with
2000 tokens and `chunk_overlap` tokens). -/
def initPreprocessor (maxChunkSize minChunkSize chunkOverlap : Nat)
    (useSemanticRefinement useHierarchy semanticAvailable : Bool) : Option Config :=
  if 4 * chunkOverlap > 4 * maxChunkSize then none
  else if chunkOverlap > 2000 then none
  else some
    { maxChunkSize := maxChunkSize
      minChunkSize := minChunkSize
      chunkOverlap := chunkOverlap
      useSemanticRefinement := useSemanticRefinement
      semanticChunker := useSemanticRefinement && semanticAvailable
      useHierarchy := useHierarchy }

/-! ## Size enforcement (`_ensure_chunk_sizes`, lines 119-139) -/

/-- The forced character-midpoint split of an oversized chunk the splitter
could not divide (`chunk[:mid], chunk[mid:]`, lines 133-134). -/
def forceSplit (chunk : Text) : List Text :=
  [chunk.take (chunk.length / 2), chunk.drop (chunk.length / 2)]

/-- The sub-chunks an oversized chunk is re-split into (lines 130-134). -/
def subChunksOf (cl : Collab) (chunk : Text) : List Text :=
  let sub := cl.recursiveSplit chunk
  if sub = [chunk] then forceSplit chunk else sub

/-- Model of `_ensure_chunk_sizes` with the recursion depth expressed as remaining
fuel: the Python code checks `depth > 10` at entry and recurses with
`depth + 1`, which is exactly `ensureAux (11 - depth)`.  At fuel 0 (Python
depth 11) the chunk list is returned unchecked. -/
def ensureAux (cl : Collab) (mi ma : Nat) : Nat → List Text → List Text
  | 0, chunks => chunks
  | fuel+1, chunks =>
    chunks.foldr (fun chunk acc =>
      (let tc := cl.tok chunk
       if mi ≤ tc then
         if ma < tc then ensureAux cl mi ma fuel (subChunksOf cl chunk)
         else [chunk]
       else []) ++ acc) []

/-- Model of `BusinessContentPreprocessor._ensure_chunk_sizes(chunks, depth)`:
chunks below `min_chunk_size` are dropped, oversized chunks are re-split
recursively, and when `depth > 10` the list is returned as is. -/
def ensure_chunk_sizes (cl : Collab) (mi ma : Nat) (chunks : List Text) (depth : Nat) :
    List Text :=
  ensureAux cl mi ma (11 - depth) chunks

/-- Companion to `ensureAux`: `true` iff the recursion starting from this
call can reach the `depth > 10` early return (conservatively, `true` at
fuel 0). -/
def ensureCapAux (cl : Collab) (mi ma : Nat) : Nat → List Text → Bool
  | 0, _ => true
  | fuel+1, chunks =>
    chunks.any (fun chunk =>
      let tc := cl.tok chunk
      if mi ≤ tc then
        if ma < tc then ensureCapAux cl mi ma fuel (subChunksOf cl chunk)
        else false
      else false)

/-- Whether `_ensure_chunk_sizes(chunks, depth)` reaches its recursion-depth
cap. -/
def ensure_cap_hit (cl : Collab) (mi ma : Nat) (chunks : List Text) (depth : Nat) : Bool :=
  ensureCapAux cl mi ma (11 - depth) chunks

/-- A gas-instrumented semantics of the `_ensure_chunk_sizes` recursion:
every call consumes one unit of gas and `none` signals that the given gas
did not suffice to finish.  Used to state that the recursion always
terminates within the configured depth cap. -/
def ensure_gas (cl : Collab) (mi ma : Nat) : Nat → List Text → Nat → Option (List Text)
  | 0, _, _ => none
  | gas+1, chunks, depth =>
    if 10 < depth then some chunks
    else
      chunks.foldr (fun chunk acc =>
        match acc with
        | none => none
        | some rest =>
          let tc := cl.tok chunk
          if mi ≤ tc then
            if ma < tc then
              match ensure_gas cl mi ma gas (subChunksOf cl chunk) (depth+1) with
              | none => none
              | some cur => some (cur ++ rest)
            else some (chunk :: rest)
          else some rest) (some [])

/-! ## The transcript pipeline (`preprocess_transcript`, lines 141-229) -/

/-- Steps 0-3 of `preprocess_transcript`: normalization, recursive
splitting, size enforcement, and optional semantic refinement (the
`try`/`except` around the semantic chunker keeps the pre-refinement chunks
when the collaborator raises). -/
def pipeline_chunks (cfg : Config) (cl : Collab) (t : Text) : List Text :=
  let normalized := preprocess_text t
  let initial := cl.recursiveSplit normalized
  let chunks := ensure_chunk_sizes cl cfg.minChunkSize cfg.maxChunkSize initial 0
  if cfg.useSemanticRefinement = true ∧ cfg.semanticChunker = true ∧ 1 < chunks.length then
    match cl.semanticSplit (List.intercalate (String.toList "\n\n") chunks) with
    | some sem => ensure_chunk_sizes cl cfg.minChunkSize cfg.maxChunkSize sem 0
    | none => chunks
  else chunks

/-- A parent chunk record (`{'id': ..., 'content': ..., 'child_indices': ...}`,
lines 182-186). -/
structure ParentRec where
  id : String
  content : Text
  childIndices : List Nat
deriving DecidableEq, Repr

/-- The parent-chunk list built at step 4 (`enumerate(parent_texts)`). -/
def mkParents : Nat → List Text → List ParentRec
  | _, [] => []
  | i, t :: ts => ⟨"parent_" ++ toString i, t, []⟩ :: mkParents (i+1) ts

/-- A default record for (never-occurring) out-of-range parent lookups. -/
def defaultParent : ParentRec := ⟨"", [], []⟩

/-- Model of Python `parent_chunks[j].child_indices.append(i)` (line 205). -/
def appendAt : List ParentRec → Nat → Nat → List ParentRec
  | [], _, _ => []
  | p :: ps, 0, i => { p with childIndices := p.childIndices ++ [i] } :: ps
  | p :: ps, j+1, i => p :: appendAt ps j i

/-- The `chunk_metadata` built for child `i` before hierarchy mapping
(`metadata.copy()` followed by the `update` of lines 192-198). -/
def childBaseMd (cfg : Config) (cl : Collab) (metadata : Dict) (total i : Nat)
    (chunk : Text) : Dict :=
  dupdate metadata
    [("chunk_id", Val.s ("child_" ++ toString i)),
     ("chunk_index", Val.n i),
     ("total_chunks", Val.n total),
     ("token_count", Val.n (cl.tok chunk)),
     ("chunk_type", Val.s (if cfg.useSemanticRefinement then "semantic" else "recursive"))]

/-- The hierarchy mapping for child `i` (lines 201-205): assign the parent
`min(i // 2, len(parent_chunks) - 1)`, record its id in the child metadata
and append `i` to its `child_indices`. -/
def hierStep (cfg : Config) (base : Dict) (parents : List ParentRec) (i : Nat) :
    Dict × List ParentRec :=
  if cfg.useHierarchy && !parents.isEmpty then
    (dset base "parent_id"
       (Val.s (parents.getD (min (i / 2) (parents.length - 1)) defaultParent).id),
     appendAt parents (min (i / 2) (parents.length - 1)) i)
  else (base, parents)

/-- Step 5 of `preprocess_transcript` (lines 189-211): build one child
document per chunk, threading the parent records whose `child_indices` the
loop mutates.  `total` is `len(chunks)`; `i` is the enumeration index. -/
def buildDocs (cfg : Config) (cl : Collab) (metadata : Dict) (total : Nat) :
    Nat → List Text → List ParentRec → List Document × List ParentRec
  | _, [], parents => ([], parents)
  | i, chunk :: rest, parents =>
    let step := hierStep cfg (childBaseMd cfg cl metadata total i chunk) parents i
    let next := buildDocs cfg cl metadata total (i+1) rest step.2
    (⟨chunk, step.1⟩ :: next.1, next.2)

/-- The parent document built for one parent record (lines 215-227). -/
def mkParentDoc (cl : Collab) (metadata : Dict) (p : ParentRec) : Document :=
  ⟨p.content,
   dupdate metadata
     [("chunk_id", Val.s p.id),
      ("chunk_type", Val.s "parent"),
      ("child_indices", Val.ns p.childIndices),
      ("token_count", Val.n (cl.tok p.content))]⟩

/-- Model of `BusinessContentPreprocessor.preprocess_transcript(transcript_text,
metadata)`: normalized chunking followed by document assembly with optional
parent/child hierarchy. -/
def preprocess_transcript (cfg : Config) (cl : Collab) (transcriptText : Text)
    (metadata : Dict) : List Document :=
  let chunks := pipeline_chunks cfg cl transcriptText
  let parents0 :=
    if cfg.useHierarchy then mkParents 0 (cl.parentSplit (preprocess_text transcriptText))
    else []
  let built := buildDocs cfg cl metadata chunks.length 0 chunks parents0
  built.1 ++ (if cfg.useHierarchy then built.2.map (mkParentDoc cl metadata) else [])

/-- Is this an emitted parent document?  Child documents carry
`chunk_type` `semantic`/`recursive`. -/
def isParentDoc (d : Document) : Bool :=
  dget d.metadata "chunk_type" == some (Val.s "parent")

/-- The page contents of the non-parent documents of an output, in order. -/
def nonParentContents (docs : List Document) : List Text :=
  (docs.filter (fun d => !(isParentDoc d))).map (fun d => d.page_content)

/-! ## Batch processing (`preprocess_batch`, lines 231-250) -/

/-- One element of the `transcripts` argument: a dict that may or may not
carry the `text` and `metadata` keys (a missing key raises `KeyError` in
Python). -/
structure RawTranscript where
  text : Option Text
  metadata : Option Dict
deriving DecidableEq, Repr

/-- Model of `BusinessContentPreprocessor.preprocess_batch(transcripts)`: the loop
has no exception handling, so a record without `text` or `metadata`
propagates its `KeyError` out of the whole batch. -/
def preprocess_batch (cfg : Config) (cl : Collab) :
    List RawTranscript → Except String (List Document)
  | [] => Except.ok []
  | tr :: rest =>
    match tr.text, tr.metadata with
    | some t, some md =>
      match preprocess_batch cfg cl rest with
      | Except.ok docs => Except.ok (preprocess_transcript cfg cl t md ++ docs)
      | Except.error e => Except.error e
    | _, _ => Except.error "KeyError"

/-! ## Retrieval (`BaselineRAGAgent._retrieve_context`, baseline_rag_agent.py lines 68-134) -/

/-- The vector store as the retrieval path observes it: plain similarity
search, and the filtered one-result parent lookup performed inside a bare
`try`/`except` (`none` models a raised exception, which the code swallows). -/
structure VectorStore where
  search : String → Nat → List Document
  parentSearch : String → Option (List Document)

/-- Model of Python `doc.metadata.get` of `chunk_type` with default `child`. -/
def chunkTypeOf (d : Document) : Val :=
  (dget d.metadata "chunk_type").getD (Val.s "child")

/-- The `parent_id` collected from a retrieved child chunk: the pipeline
only ever writes non-empty strings there, and Python's `if parent_id:`
truthiness test keeps exactly those. -/
def parentIdOf (d : Document) : Option String :=
  match dget d.metadata "parent_id" with
  | some (Val.s pid) => if pid = "" then none else some pid
  | _ => none

/-- Keep the first occurrence of each element (the `parent_ids` set in
insertion order; the set only gates membership, and CPython's iteration
order of a string set is not otherwise observable through the properties
proved here). -/
def dedupKeepFirst : List String → List String
  | [] => []
  | x :: xs => x :: (dedupKeepFirst xs).filter (fun y => y ≠ x)

/-- Rendering of a metadata value inside the serialization f-string
(metadata titles and chunk ids are strings in this pipeline; other values
are rendered loosely). -/
def valText : Val → Text
  | Val.s v => v.toList
  | Val.n v => (toString v).toList
  | Val.ns v => (toString v).toList

/-- One serialized context block (line 131):
`Source: <title> | Chunk: <chunk_id>` newline `Content: <page_content>`. -/
def blockOf (d : Document) : Text :=
  String.toList "Source: " ++ valText ((dget d.metadata "title").getD (Val.s "Unknown"))
    ++ String.toList " | Chunk: " ++ valText ((dget d.metadata "chunk_id").getD (Val.s "N/A"))
    ++ String.toList "\nContent: " ++ d.page_content

/-- The dedup loop of lines 120-127: `seen` holds the hashes
(`hash(doc.page_content.strip())`) already emitted; the hash is modelled by
the stripped content itself. -/
def dedupLoop (seen : List Text) : List Document → List Document
  | [] => []
  | d :: rest =>
    let h := pyStrip d.page_content
    if h ∈ seen then dedupLoop seen rest
    else d :: dedupLoop (h :: seen) rest

/-- The child/parent classification and parent fetch of lines 87-119,
producing the `all_docs` list. -/
def allRetrievedDocs (store : VectorStore) (query : String) (topK : Nat) : List Document :=
  let retrieved := store.search query topK
  let childDocs := retrieved.filter (fun d => chunkTypeOf d == Val.s "child")
  let parentDocs0 := retrieved.filter (fun d => chunkTypeOf d == Val.s "parent")
  let parentIds := dedupKeepFirst (retrieved.filterMap (fun d =>
    if chunkTypeOf d == Val.s "child" then parentIdOf d else none))
  let fetched := parentIds.foldl (fun acc pid => acc ++ ((store.parentSearch pid).getD [])) []
  childDocs ++ (parentDocs0 ++ fetched)

/-- Model of `BaselineRAGAgent._retrieve_context(query, top_k)`: `none` for the
unloaded store, otherwise the deduplicated serialized context. -/
def retrieve_context (vs : Option VectorStore) (query : String) (topK : Nat) : Text :=
  match vs with
  | none => String.toList "No documents loaded in vector store."
  | some store =>
    List.intercalate (String.toList "\n\n")
      ((dedupLoop [] (allRetrievedDocs store query topK)).map blockOf)

/-- Modelled from the spec: "an ordered list of Chunks (deduplicated by
content hash)" — an independent formulation of deduplication that keeps a
document exactly when no earlier document has the same (stripped) content,
stated by filtering all later duplicates away. -/
def dedupSpec : List Document → List Document
  | [] => []
  | d :: rest =>
    d :: dedupSpec (rest.filter (fun e => pyStrip e.page_content ≠ pyStrip d.page_content))
termination_by l => l.length
decreasing_by simp only [List.length_cons]; exact Nat.lt_succ_of_le (List.length_filter_le _ _)

/-- Modelled from the spec: blocks of the form
`Source: <metadata> | Chunk: <id>` newline `Content: <text>`, joined by
blank lines, over the hash-deduplicated children-then-parents list. -/
def retrieveContextSpec (store : VectorStore) (query : String) (topK : Nat) : Text :=
  List.intercalate (String.toList "\n\n")
    ((dedupSpec (allRetrievedDocs store query topK)).map blockOf)

/-! ## Heap model of metadata mutation (for the frame property of
`preprocess_transcript`) -/

/-- A store of dict objects; an address is an index.  `metadata.copy()`
allocates a fresh dict at the end of the store, subsequent `update`/key
writes hit the fresh address only. -/
abbrev DStore := List Dict

/-- Allocation of one child metadata dict plus the optional `parent_id`
write (lines 191-205) in the store model: `metadata.copy()` followed by
`update` allocates the dict `base` at address `st.length`; with hierarchy,
`chunk_metadata['parent_id'] = ...` writes to that fresh address only. -/
def hierStepStore (cfg : Config) (base : Dict) (parents : List ParentRec) (i : Nat)
    (st : DStore) : DStore × List ParentRec :=
  if cfg.useHierarchy && !parents.isEmpty then
    ((st ++ [base]).set st.length (dset base "parent_id"
       (Val.s (parents.getD (min (i / 2) (parents.length - 1)) defaultParent).id)),
     appendAt parents (min (i / 2) (parents.length - 1)) i)
  else (st ++ [base], parents)

/-- The child-document loop of lines 189-211 with the dict objects held in
an explicit store: each iteration reads the caller's `metadata` object,
allocates the updated copy, and (with hierarchy) writes `parent_id` into
the fresh object.  Returns the final store and the addresses of the
documents' metadata dicts. -/
def buildDocsStore (cfg : Config) (cl : Collab) (mdAddr : Nat) (total : Nat) :
    Nat → List Text → List ParentRec → DStore → DStore × List Nat × List ParentRec
  | _, [], parents, st => (st, [], parents)
  | i, chunk :: rest, parents, st =>
    let step := hierStepStore cfg (childBaseMd cfg cl (st.getD mdAddr []) total i chunk)
      parents i st
    let next := buildDocsStore cfg cl mdAddr total (i+1) rest step.2 step.1
    (next.1, st.length :: next.2.1, next.2.2)

/-- The parent-document loop of lines 214-227 in the store model. -/
def parentDocsStore (cl : Collab) (mdAddr : Nat) :
    List ParentRec → DStore → DStore × List Nat
  | [], st => (st, [])
  | p :: ps, st =>
    let md := st.getD mdAddr []
    let base := dupdate md
      [("chunk_id", Val.s p.id),
       ("chunk_type", Val.s "parent"),
       ("child_indices", Val.ns p.childIndices),
       ("token_count", Val.n (cl.tok p.content))]
    let next := parentDocsStore cl mdAddr ps (st ++ [base])
    (next.1, st.length :: next.2)

/-- Model of `preprocess_transcript` with the caller's metadata dict held in the
store at `mdAddr`: every dict operation of the source is a read of
`mdAddr`, an allocation, or a write to a freshly allocated address. -/
def preprocess_transcript_store (cfg : Config) (cl : Collab) (transcriptText : Text)
    (st : DStore) (mdAddr : Nat) : DStore × List Nat :=
  let chunks := pipeline_chunks cfg cl transcriptText
  let parents0 :=
    if cfg.useHierarchy then mkParents 0 (cl.parentSplit (preprocess_text transcriptText))
    else []
  let built := buildDocsStore cfg cl mdAddr chunks.length 0 chunks parents0 st
  if cfg.useHierarchy then
    let pd := parentDocsStore cl mdAddr built.2.2 built.1
    (pd.1, built.2.1 ++ pd.2)
  else (built.1, built.2.1)

/-! ## Concrete collaborators used by counterexamples and witnesses -/

/-- A minimal tokenizer/splitter collaborator: one token per character, a
recursive splitter that cannot divide its input (which the spec explicitly
allows: the splitter is best-effort and may return an oversized piece), a
semantic chunker that always raises, and a whole-text parent splitter. -/
def clLen : Collab :=
  { tok := fun t => t.length
    recursiveSplit := fun t => [t]
    semanticSplit := fun _ => none
    parentSplit := fun t => [t] }

/-- Collaborator for the C2 counterexample: the recursive splitter divides
an eight-character text into two four-character substrings, and the
semantic chunker returns its input stream as a single segment. -/
def clC2 : Collab :=
  { tok := fun t => t.length
    recursiveSplit := fun t => if t.length ≤ 4 then [t] else [t.take 4, t.drop 4]
    semanticSplit := fun s => some [s]
    parentSplit := fun t => [t] }

/-- Configuration for the C2 counterexample: semantic refinement enabled
and available. -/
def cfgC2 : Config := ⟨100, 0, 0, true, true, false⟩

/-- Configuration for the batch and hierarchy witnesses: hierarchy enabled,
refinement off, bounds `[2, 10]`. -/
def cfgB : Config := ⟨10, 2, 0, false, false, true⟩

/-- The concatenation of all parents' `child_indices`. -/
def joinChildIdx (ps : List ParentRec) : List Nat :=
  (ps.map (fun p => p.childIndices)).flatten

/-- The child documents of a hierarchy-enabled `preprocess_transcript` run. -/
def hierChildDocs (cfg : Config) (cl : Collab) (t : Text) (md : Dict) : List Document :=
  (buildDocs cfg cl md (pipeline_chunks cfg cl t).length 0 (pipeline_chunks cfg cl t)
    (mkParents 0 (cl.parentSplit (preprocess_text t)))).1

/-- The final parent records of a hierarchy-enabled `preprocess_transcript`
run (after all `child_indices` appends). -/
def hierParentsFinal (cfg : Config) (cl : Collab) (t : Text) (md : Dict) : List ParentRec :=
  (buildDocs cfg cl md (pipeline_chunks cfg cl t).length 0 (pipeline_chunks cfg cl t)
    (mkParents 0 (cl.parentSplit (preprocess_text t)))).2

end KMA

namespace KMA

/-! ## Dictionary lemmas -/

theorem dget_dset_self (d : Dict) (k : String) (v : Val) :
    dget (dset d k v) k = some v := by
  induction d with
  | nil => simp [dset, dget]
  | cons kv rest ih =>
    obtain ⟨k', v'⟩ := kv
    by_cases h : k' = k
    · simp [dset, dget, h]
    · simp [dset, dget, h, ih]

theorem dget_dset_ne (d : Dict) (k k2 : String) (v : Val) (h : k ≠ k2) :
    dget (dset d k2 v) k = dget d k := by
  induction d with
  | nil =>
    show (if k2 = k then some v else dget [] k) = dget [] k
    rw [if_neg (fun hh => h hh.symm)]
  | cons kv rest ih =>
    obtain ⟨k', v'⟩ := kv
    show dget (if k' = k2 then (k2, v) :: rest else (k', v') :: dset rest k2 v) k = _
    by_cases h2 : k' = k2
    · rw [if_pos h2]
      show (if k2 = k then some v else dget rest k) = _
      rw [if_neg (fun hh => h hh.symm)]
      show _ = (if k' = k then some v' else dget rest k)
      rw [if_neg (by rw [h2]; exact fun hh => h hh.symm)]
    · rw [if_neg h2]
      show (if k' = k then some v' else dget (dset rest k2 v) k)
        = (if k' = k then some v' else dget rest k)
      rw [ih]

/-! ## Unfolding lemmas for the size enforcer -/

theorem ensureAux_nil (cl : Collab) (mi ma fuel : Nat) :
    ensureAux cl mi ma (fuel+1) [] = [] := rfl

theorem ensureAux_cons (cl : Collab) (mi ma fuel : Nat) (chunk : Text) (rest : List Text) :
    ensureAux cl mi ma (fuel+1) (chunk :: rest) =
      (if mi ≤ cl.tok chunk then
         if ma < cl.tok chunk then ensureAux cl mi ma fuel (subChunksOf cl chunk)
         else [chunk]
       else []) ++ ensureAux cl mi ma (fuel+1) rest := rfl

theorem ensureCapAux_cons (cl : Collab) (mi ma fuel : Nat) (chunk : Text) (rest : List Text) :
    ensureCapAux cl mi ma (fuel+1) (chunk :: rest) =
      ((if mi ≤ cl.tok chunk then
          if ma < cl.tok chunk then ensureCapAux cl mi ma fuel (subChunksOf cl chunk)
          else false
        else false) || ensureCapAux cl mi ma (fuel+1) rest) := by
  simp [ensureCapAux, List.any_cons]

/-- When the depth cap is never reached, every chunk the enforcer returns
has its token count within the configured bounds. -/
theorem ensureAux_sizes (cl : Collab) (mi ma : Nat) :
    ∀ (fuel : Nat) (chunks : List Text), ensureCapAux cl mi ma fuel chunks = false →
      ∀ c ∈ ensureAux cl mi ma fuel chunks, mi ≤ cl.tok c ∧ cl.tok c ≤ ma := by
  intro fuel
  induction fuel with
  | zero => intro chunks hcap; simp [ensureCapAux] at hcap
  | succ fuel ih =>
    intro chunks
    induction chunks with
    | nil => intro _ c hc; simp [ensureAux_nil] at hc
    | cons chunk rest ihr =>
      intro hcap c hc
      rw [ensureCapAux_cons, Bool.or_eq_false_iff] at hcap
      obtain ⟨h1, h2⟩ := hcap
      rw [ensureAux_cons, List.mem_append] at hc
      rcases hc with hc | hc
      · by_cases hmi : mi ≤ cl.tok chunk
        · by_cases hma : ma < cl.tok chunk
          · rw [if_pos hmi, if_pos hma] at hc h1
            exact ih (subChunksOf cl chunk) h1 c hc
          · rw [if_pos hmi, if_neg hma] at hc
            rcases List.mem_singleton.mp hc with rfl
            exact ⟨hmi, Nat.le_of_not_lt hma⟩
        · rw [if_neg hmi] at hc
          simp at hc
      · exact ihr h2 c hc

/-! ## Claim C1 — size invariant of `_ensure_chunk_sizes` -/

/-- C1 (counterexample): with `min_chunk_size = max_chunk_size = 0` (a
configuration with `min ≤ max`), a one-character candidate chunk survives
in the output of `_ensure_chunk_sizes` with token count 1 > max: the
recursion reaches the `depth > 10` cap (the splitter cannot divide the
chunk, and the forced midpoint split of a one-character string yields the
empty string plus the same character again), and the cap returns chunks
unchecked.  Hence not every returned chunk lies within `[min, max]`. -/
theorem C1_size_invariant_cex :
    (0 : Nat) ≤ 0 ∧
    String.toList "a" ∈ ensure_chunk_sizes clLen 0 0 [String.toList "a"] 0 ∧
    ¬ clLen.tok (String.toList "a") ≤ 0 := by
  refine ⟨Nat.le_refl 0, ?_, by decide⟩
  decide

/-- C1 (amended): every chunk returned by `_ensure_chunk_sizes` has its
token count within `[min_chunk_size, max_chunk_size]` provided the
recursion never reaches the depth-10 cap (chunks returned by the cap's
early exit are unchecked and may violate both bounds). -/
theorem C1_size_invariant_amended (cl : Collab) (mi ma : Nat) (chunks : List Text)
    (hord : mi ≤ ma) (hcap : ensure_cap_hit cl mi ma chunks 0 = false) :
    ∀ c ∈ ensure_chunk_sizes cl mi ma chunks 0, mi ≤ cl.tok c ∧ cl.tok c ≤ ma := by
  exact ensureAux_sizes cl mi ma 11 chunks hcap

/-- C1 (witness for the amended theorem): a two-character chunk with bounds
`[1, 2]` never reaches the cap and is returned within bounds. -/
theorem C1_size_invariant_amended_wit :
    1 ≤ clLen.tok (String.toList "ab") ∧ clLen.tok (String.toList "ab") ≤ 2 :=
  C1_size_invariant_amended clLen 1 2 [String.toList "ab"] (by decide) (by decide)
    (String.toList "ab") (by decide)

/-! ## Claim C8 — termination of size enforcement -/

theorem ensure_gas_succ (cl : Collab) (mi ma g depth : Nat) (chunks : List Text) :
    ensure_gas cl mi ma (g+1) chunks depth =
      if 10 < depth then some chunks
      else chunks.foldr (fun chunk acc =>
        match acc with
        | none => none
        | some rest =>
          if mi ≤ cl.tok chunk then
            if ma < cl.tok chunk then
              match ensure_gas cl mi ma g (subChunksOf cl chunk) (depth+1) with
              | none => none
              | some cur => some (cur ++ rest)
            else some (chunk :: rest)
          else some rest) (some []) := rfl

theorem ensure_gas_cons (cl : Collab) (mi ma g depth : Nat) (chunk : Text)
    (rest : List Text) (hd : ¬ 10 < depth) :
    ensure_gas cl mi ma (g+1) (chunk :: rest) depth =
      match ensure_gas cl mi ma (g+1) rest depth with
      | none => none
      | some r =>
        if mi ≤ cl.tok chunk then
          if ma < cl.tok chunk then
            match ensure_gas cl mi ma g (subChunksOf cl chunk) (depth+1) with
            | none => none
            | some cur => some (cur ++ r)
          else some (chunk :: r)
        else some r := by
  conv_lhs => rw [ensure_gas_succ, if_neg hd, List.foldr_cons]
  rw [ensure_gas_succ cl mi ma g depth rest, if_neg hd]

theorem ensure_gas_cons_ok (cl : Collab) (mi ma g depth : Nat) (chunk : Text)
    (rest : List Text) (r : List Text) (hd : ¬ 10 < depth)
    (hrest : ensure_gas cl mi ma (g+1) rest depth = some r) :
    ensure_gas cl mi ma (g+1) (chunk :: rest) depth =
      if mi ≤ cl.tok chunk then
        if ma < cl.tok chunk then
          match ensure_gas cl mi ma g (subChunksOf cl chunk) (depth+1) with
          | none => none
          | some cur => some (cur ++ r)
        else some (chunk :: r)
      else some r := by
  rw [ensure_gas_cons cl mi ma g depth chunk rest hd, hrest]

/-- C8: the `_ensure_chunk_sizes` recursion terminates within the
configured depth cap for every input and every collaborator behaviour: the
gas-instrumented semantics, in which every call consumes one unit of gas
and `none` signals non-termination within the budget, returns the
enforcer's result whenever the gas covers the depth cap (12 call levels
from depth 0). -/
theorem C8_enforcement_terminates (cl : Collab) (mi ma : Nat) :
    ∀ (gas : Nat) (depth : Nat) (chunks : List Text), 0 < gas → 12 ≤ gas + depth →
      ensure_gas cl mi ma gas chunks depth = some (ensure_chunk_sizes cl mi ma chunks depth) := by
  intro gas
  induction gas with
  | zero => intro depth chunks h1 _; exact absurd h1 (Nat.lt_irrefl 0)
  | succ g ih =>
    intro depth chunks _ h2
    by_cases hd : 10 < depth
    · have hz : 11 - depth = 0 := by omega
      rw [ensure_gas_succ, if_pos hd]
      unfold ensure_chunk_sizes
      rw [hz]
      rfl
    · have hf : 11 - depth = (10 - depth) + 1 := by omega
      unfold ensure_chunk_sizes
      rw [hf]
      induction chunks with
      | nil =>
        rw [ensure_gas_succ, if_neg hd]
        rfl
      | cons chunk rest ihr =>
        rw [ensure_gas_cons_ok cl mi ma g depth chunk rest _ hd ihr, ensureAux_cons]
        by_cases hmi : mi ≤ cl.tok chunk
        · by_cases hma : ma < cl.tok chunk
          · have hrec := ih (depth + 1) (subChunksOf cl chunk) (by omega) (by omega)
            unfold ensure_chunk_sizes at hrec
            rw [show 11 - (depth + 1) = 10 - depth from by omega] at hrec
            simp only [if_pos hmi, if_pos hma]
            rw [hrec]
          · simp only [if_pos hmi, if_neg hma]
            rfl
        · simp only [if_neg hmi]
          rfl

/-- C8 (witness): with gas 12 the instrumented semantics finishes on a
concrete pathological input (a chunk the splitter cannot divide, bounds
`[0, 0]`). -/
theorem C8_enforcement_terminates_wit :
    ensure_gas clLen 0 0 12 [String.toList "a"] 0 =
      some (ensure_chunk_sizes clLen 0 0 [String.toList "a"] 0) :=
  C8_enforcement_terminates clLen 0 0 12 0 [String.toList "a"] (by decide) (by decide)

/-! ## Claim C3 — construction-time validation -/

/-- C3 (counterexample): a configuration with
`max_chunk_size = 100 < 150 = min_chunk_size` is accepted by `__init__`:
the repository performs no min/max validation, and the external splitter
constructors only reject overly large overlaps. -/
theorem C3_no_validation_cex :
    100 < 150 ∧ (initPreprocessor 100 150 50 false false false).isSome = true := by
  decide

/-- C3 (amended): construction with `max_chunk_size < min_chunk_size`
succeeds (no validation of the bound ordering happens at construction
time); the only construction-time rejections come from the langchain
splitter constructors when `chunk_overlap` exceeds a splitter's chunk
size. -/
theorem C3_construction_succeeds (maxC minC ov : Nat) (sem hier av : Bool)
    (hlt : maxC < minC) (hov : ov ≤ maxC) (hov2 : ov ≤ 2000) :
    (initPreprocessor maxC minC ov sem hier av).isSome = true := by
  unfold initPreprocessor
  rw [if_neg (by omega), if_neg (by omega)]
  rfl

/-- C3 (witness for the amended theorem). -/
theorem C3_construction_succeeds_wit :
    (initPreprocessor 100 150 50 true true false).isSome = true :=
  C3_construction_succeeds 100 150 50 true true false (by decide) (by decide) (by decide)

/-! ## Claim C7 — idempotence of normalization -/

/-- C7: the repeated-utterance pass of `_preprocess_text` is a single
`re.sub` sweep, so on the stutter input `"a a a a a"` one application
returns `"a a a"` (still a triple of identical words, contradicting the
code's own comment that 3+ identical repetitions are removed) and a second
application returns `"a"`: normalization is not idempotent. -/
theorem C7_normalization_not_idempotent :
    preprocess_text (String.toList "a a a a a") = String.toList "a a a" ∧
    preprocess_text (preprocess_text (String.toList "a a a a a")) = String.toList "a" := by
  constructor
  · decide
  · decide

/-! ## Document-assembly lemmas -/

theorem buildDocs_cons_fst (cfg : Config) (cl : Collab) (metadata : Dict)
    (total i : Nat) (chunk : Text) (rest : List Text) (parents : List ParentRec) :
    (buildDocs cfg cl metadata total i (chunk :: rest) parents).1 =
      ⟨chunk, (hierStep cfg (childBaseMd cfg cl metadata total i chunk) parents i).1⟩ ::
        (buildDocs cfg cl metadata total (i+1) rest
          (hierStep cfg (childBaseMd cfg cl metadata total i chunk) parents i).2).1 := rfl

theorem buildDocs_cons_snd (cfg : Config) (cl : Collab) (metadata : Dict)
    (total i : Nat) (chunk : Text) (rest : List Text) (parents : List ParentRec) :
    (buildDocs cfg cl metadata total i (chunk :: rest) parents).2 =
      (buildDocs cfg cl metadata total (i+1) rest
        (hierStep cfg (childBaseMd cfg cl metadata total i chunk) parents i).2).2 := rfl

/-- The `chunk_type` a child document's metadata carries. -/
theorem childBaseMd_chunk_type (cfg : Config) (cl : Collab) (metadata : Dict)
    (total i : Nat) (chunk : Text) :
    dget (childBaseMd cfg cl metadata total i chunk) "chunk_type"
      = some (Val.s (if cfg.useSemanticRefinement then "semantic" else "recursive")) :=
  dget_dset_self _ _ _

/-- The hierarchy step only adds `parent_id`; the `chunk_type` entry is
untouched. -/
theorem hierStep_chunk_type (cfg : Config) (base : Dict) (parents : List ParentRec)
    (i : Nat) :
    dget (hierStep cfg base parents i).1 "chunk_type" = dget base "chunk_type" := by
  unfold hierStep
  split
  · exact dget_dset_ne _ _ _ _ (by decide)
  · rfl

/-- Every document produced by the child loop is a non-parent document. -/
theorem buildDocs_not_parent (cfg : Config) (cl : Collab) (metadata : Dict) (total : Nat) :
    ∀ (chunks : List Text) (i : Nat) (parents : List ParentRec),
      ∀ d ∈ (buildDocs cfg cl metadata total i chunks parents).1, isParentDoc d = false := by
  intro chunks
  induction chunks with
  | nil => intro i parents d hd; exact absurd hd (List.not_mem_nil d)
  | cons chunk rest ih =>
    intro i parents d hd
    rw [buildDocs_cons_fst, List.mem_cons] at hd
    rcases hd with hd | hd
    · subst hd
      unfold isParentDoc
      show (dget (hierStep cfg (childBaseMd cfg cl metadata total i chunk) parents i).1
        "chunk_type" == some (Val.s "parent")) = false
      rw [hierStep_chunk_type, childBaseMd_chunk_type]
      cases hsem : cfg.useSemanticRefinement <;> simp
    · exact ih (i+1) _ d hd

/-- The child loop emits exactly the chunk list as page contents. -/
theorem buildDocs_contents (cfg : Config) (cl : Collab) (metadata : Dict) (total : Nat) :
    ∀ (chunks : List Text) (i : Nat) (parents : List ParentRec),
      ((buildDocs cfg cl metadata total i chunks parents).1).map (fun d => d.page_content)
        = chunks := by
  intro chunks
  induction chunks with
  | nil => intro i parents; rfl
  | cons chunk rest ih =>
    intro i parents
    rw [buildDocs_cons_fst, List.map_cons, ih]

/-- Every document produced by the parent loop is a parent document. -/
theorem mkParentDoc_is_parent (cl : Collab) (metadata : Dict) (p : ParentRec) :
    isParentDoc (mkParentDoc cl metadata p) = true := by
  unfold isParentDoc mkParentDoc
  show (dget (dset (dset (dset (dset metadata "chunk_id" _) "chunk_type" _)
      "child_indices" _) "token_count" _) "chunk_type" == some (Val.s "parent")) = true
  rw [dget_dset_ne _ _ _ _ (by decide), dget_dset_ne _ _ _ _ (by decide), dget_dset_self]
  rfl

/-- The non-parent page contents of `preprocess_transcript` are exactly the
pipeline's chunk list. -/
theorem nonParent_eq_chunks (cfg : Config) (cl : Collab) (t : Text) (md : Dict) :
    nonParentContents (preprocess_transcript cfg cl t md) = pipeline_chunks cfg cl t := by
  unfold preprocess_transcript nonParentContents
  rw [List.filter_append]
  have h1 : ((buildDocs cfg cl md (pipeline_chunks cfg cl t).length 0
        (pipeline_chunks cfg cl t)
        (if cfg.useHierarchy then mkParents 0 (cl.parentSplit (preprocess_text t))
         else [])).1).filter (fun d => !(isParentDoc d))
      = (buildDocs cfg cl md (pipeline_chunks cfg cl t).length 0
        (pipeline_chunks cfg cl t)
        (if cfg.useHierarchy then mkParents 0 (cl.parentSplit (preprocess_text t))
         else [])).1 := by
    apply List.filter_eq_self.mpr
    intro d hd
    rw [buildDocs_not_parent cfg cl md _ _ _ _ d hd]
    rfl
  rw [h1]
  have h2 : ((if cfg.useHierarchy then
        ((buildDocs cfg cl md (pipeline_chunks cfg cl t).length 0
          (pipeline_chunks cfg cl t)
          (if cfg.useHierarchy then mkParents 0 (cl.parentSplit (preprocess_text t))
           else [])).2).map (mkParentDoc cl md)
      else [])).filter (fun d => !(isParentDoc d)) = [] := by
    apply List.filter_eq_nil_iff.mpr
    intro d hd
    split at hd
    · rcases List.mem_map.mp hd with ⟨p, _, rfl⟩
      rw [mkParentDoc_is_parent]
      decide
    · simp at hd
  rw [h2, List.append_nil]
  exact buildDocs_contents cfg cl md _ _ _ _

/-! ## Claim C4 — fallback when the semantic refiner raises -/

/-- C4: if the semantic-refinement collaborator raises on every call, then
`preprocess_transcript` does not raise (the model is total: the exception
is absorbed by the `try`/`except`) and the emitted non-parent chunk
sequence is exactly the pre-refinement sequence — recursive splitting
followed by size enforcement alone. -/
theorem C4_refiner_fallback (cfg : Config) (cl : Collab) (t : Text) (md : Dict)
    (hsem : ∀ s, cl.semanticSplit s = none) :
    nonParentContents (preprocess_transcript cfg cl t md)
      = ensure_chunk_sizes cl cfg.minChunkSize cfg.maxChunkSize
          (cl.recursiveSplit (preprocess_text t)) 0 := by
  rw [nonParent_eq_chunks]
  simp only [pipeline_chunks]
  split
  · rw [hsem]
  · rfl

/-- C4 (witness): a concrete run with the always-raising refiner. -/
theorem C4_refiner_fallback_wit :
    nonParentContents (preprocess_transcript ⟨10, 0, 0, true, true, false⟩ clLen
        (String.toList "ab") [])
      = ensure_chunk_sizes clLen 0 10 (clLen.recursiveSplit (preprocess_text
          (String.toList "ab"))) 0 :=
  C4_refiner_fallback ⟨10, 0, 0, true, true, false⟩ clLen (String.toList "ab") []
    (fun _ => rfl)

/-! ## Claim C2 — content containment -/

/-- Pieces produced by the re-splitting of an oversized chunk are
contiguous substrings of that chunk (given that the external splitter
returns substrings, which is its contract; the forced midpoint split
produces a prefix and a suffix). -/
theorem subChunksOf_substr (cl : Collab)
    (hsplit : ∀ s c, c ∈ cl.recursiveSplit s → c <:+: s)
    (chunk c : Text) (hc : c ∈ subChunksOf cl chunk) : c <:+: chunk := by
  simp only [subChunksOf, forceSplit] at hc
  by_cases h : cl.recursiveSplit chunk = [chunk]
  · rw [if_pos h] at hc
    rcases List.mem_cons.mp hc with hc1 | hc1
    · rw [hc1]
      exact (List.take_prefix _ _).isInfix
    · rw [List.mem_singleton.mp hc1]
      exact (List.drop_suffix _ _).isInfix
  · rw [if_neg h] at hc
    exact hsplit chunk c hc

/-- Size enforcement preserves substring containment in a common ambient
text. -/
theorem ensureAux_substr (cl : Collab) (mi ma : Nat)
    (hsplit : ∀ s c, c ∈ cl.recursiveSplit s → c <:+: s) (T : Text) :
    ∀ (fuel : Nat) (chunks : List Text), (∀ c ∈ chunks, c <:+: T) →
      ∀ c ∈ ensureAux cl mi ma fuel chunks, c <:+: T := by
  intro fuel
  induction fuel with
  | zero => intro chunks h c hc; exact h c hc
  | succ fuel ih =>
    intro chunks
    induction chunks with
    | nil => intro _ c hc; simp [ensureAux_nil] at hc
    | cons chunk rest ihr =>
      intro h c hc
      rw [ensureAux_cons, List.mem_append] at hc
      rcases hc with hc | hc
      · by_cases hmi : mi ≤ cl.tok chunk
        · by_cases hma : ma < cl.tok chunk
          · rw [if_pos hmi, if_pos hma] at hc
            exact ih (subChunksOf cl chunk)
              (fun c' hc' => (subChunksOf_substr cl hsplit chunk c' hc').trans
                (h chunk (List.mem_cons_self _ _))) c hc
          · rw [if_pos hmi, if_neg hma] at hc
            rcases List.mem_singleton.mp hc with rfl
            exact h c (List.mem_cons_self _ _)
        · rw [if_neg hmi] at hc
          simp at hc
      · exact ihr (fun c' hc' => h c' (List.mem_cons_of_mem _ hc')) c hc

/-- C2 (counterexample): with semantic refinement enabled, the pipeline
joins the pre-refinement chunks with `"\n\n"` before handing them to the
semantic chunker, so an emitted chunk can contain the synthesized
`"\n\n"` separator — which cannot occur in the normalized text (whitespace
is collapsed to single spaces) — and is therefore not a substring of the
normalized source. -/
theorem C2_containment_cex :
    (preprocess_transcript cfgC2 clC2 (String.toList "abcdefgh") []).map
        (fun d => d.page_content) = [String.toList "abcd\n\nefgh"] ∧
    ¬ String.toList "abcd\n\nefgh" <:+: preprocess_text (String.toList "abcdefgh") := by
  constructor
  · decide
  · decide

/-- C2 (amended): every non-parent chunk emitted by
`preprocess_transcript` is a verbatim contiguous substring of the
normalized source text, provided semantic refinement is disabled or the
semantic chunker is unavailable (when refinement runs, chunks are only
substrings of the `"\n\n"`-rejoined stream, which contains text absent
from the normalized source), and the external recursive splitter returns
substrings of its input (its documented contract). -/
theorem C2_containment_amended (cfg : Config) (cl : Collab) (t : Text) (md : Dict)
    (hs : cfg.useSemanticRefinement = false ∨ cfg.semanticChunker = false)
    (hsplit : ∀ s c, c ∈ cl.recursiveSplit s → c <:+: s) :
    ∀ d ∈ preprocess_transcript cfg cl t md, isParentDoc d = false →
      d.page_content <:+: preprocess_text t := by
  intro d hd hnp
  have hmem : d.page_content ∈ pipeline_chunks cfg cl t := by
    rw [← nonParent_eq_chunks cfg cl t md]
    exact List.mem_map_of_mem _ (List.mem_filter.mpr ⟨hd, by rw [hnp]; rfl⟩)
  have hpc : pipeline_chunks cfg cl t
      = ensure_chunk_sizes cl cfg.minChunkSize cfg.maxChunkSize
          (cl.recursiveSplit (preprocess_text t)) 0 := by
    unfold pipeline_chunks
    rw [if_neg]
    rintro ⟨hs1, hs2, -⟩
    rcases hs with hs | hs
    · rw [hs] at hs1; exact Bool.false_ne_true hs1
    · rw [hs] at hs2; exact Bool.false_ne_true hs2
  rw [hpc] at hmem
  exact ensureAux_substr cl cfg.minChunkSize cfg.maxChunkSize hsplit (preprocess_text t)
    11 (cl.recursiveSplit (preprocess_text t))
    (fun c hc => hsplit (preprocess_text t) c hc) d.page_content hmem

/-- C2 (witness for the amended theorem): with refinement disabled and the
identity splitter, the emitted chunk is a substring of the normalized
text. -/
theorem C2_containment_amended_wit :
    String.toList "ab" <:+: preprocess_text (String.toList "ab") :=
  C2_containment_amended ⟨10, 0, 0, false, false, false⟩ clLen (String.toList "ab") []
    (Or.inl rfl)
    (fun s c hc => by
      rw [List.mem_singleton.mp hc])
    ⟨String.toList "ab",
      [("chunk_id", Val.s "child_0"), ("chunk_index", Val.n 0),
       ("total_chunks", Val.n 1), ("token_count", Val.n 2),
       ("chunk_type", Val.s "recursive")]⟩
    (by decide) (by decide)

/-! ## Claim C6 — batch isolation -/

/-- C6 (counterexample): `preprocess_batch` contains no exception
handling, so a malformed record (here: missing the `text` key, which
raises `KeyError`) aborts the whole batch — the well-formed first and
third transcripts notwithstanding, no documents are emitted. -/
theorem C6_batch_cex :
    preprocess_batch cfgB clLen
        [⟨some (String.toList "abc"), some []⟩, ⟨none, some []⟩,
         ⟨some (String.toList "def"), some []⟩]
      = Except.error "KeyError" := by
  rfl

/-- C6 (amended): for batches whose records all carry the `text` and
`metadata` keys — including records with empty text, which simply
contribute the chunks of the empty transcript (none, under a positive
minimum size) — `preprocess_batch` does not raise and emits exactly the
concatenation of every transcript's documents; a record missing either key
aborts the whole batch with `KeyError`. -/
theorem C6_batch_amended (cfg : Config) (cl : Collab) (ts : List RawTranscript)
    (h : ∀ tr ∈ ts, tr.text.isSome ∧ tr.metadata.isSome) :
    preprocess_batch cfg cl ts = Except.ok
      ((ts.map (fun tr =>
        preprocess_transcript cfg cl (tr.text.getD []) (tr.metadata.getD []))).flatten) := by
  induction ts with
  | nil => rfl
  | cons tr rest ih =>
    have h1 := h tr (List.mem_cons_self _ _)
    have hrest := ih (fun tr' htr' => h tr' (List.mem_cons_of_mem _ htr'))
    rcases htt : tr.text with _ | t
    · rw [htt] at h1; simp at h1
    rcases hmd : tr.metadata with _ | md
    · rw [hmd] at h1; simp at h1
    simp only [preprocess_batch, htt, hmd, hrest, List.map_cons, List.flatten_cons,
      Option.getD_some]

/-- C6 (witness for the amended theorem): a two-record batch, the second
with empty text, succeeds and emits the concatenated documents. -/
theorem C6_batch_amended_wit :
    preprocess_batch cfgB clLen
        [⟨some (String.toList "abc"), some []⟩, ⟨some [], some []⟩]
      = Except.ok
        ((([⟨some (String.toList "abc"), some []⟩, ⟨some [], some []⟩] :
            List RawTranscript).map (fun tr =>
          preprocess_transcript cfgB clLen (tr.text.getD []) (tr.metadata.getD []))).flatten) :=
  C6_batch_amended cfgB clLen _ (by decide)

/-! ## Hierarchy bookkeeping lemmas (for claim C5) -/

theorem appendAt_length (ps : List ParentRec) (j i : Nat) :
    (appendAt ps j i).length = ps.length := by
  induction ps generalizing j with
  | nil => rfl
  | cons p rest ih =>
    cases j with
    | zero => rfl
    | succ j => show (appendAt rest j i).length + 1 = rest.length + 1; rw [ih]

theorem appendAt_getD_id (ps : List ParentRec) (j i j' : Nat) :
    ((appendAt ps j i).getD j' defaultParent).id = (ps.getD j' defaultParent).id := by
  induction ps generalizing j j' with
  | nil => rfl
  | cons p rest ih =>
    cases j with
    | zero => cases j' with
      | zero => rfl
      | succ j' => rfl
    | succ j => cases j' with
      | zero => rfl
      | succ j' => exact ih j j'

theorem appendAt_mem_childIndices (ps : List ParentRec) (j i j' k : Nat)
    (hk : k ∈ (ps.getD j' defaultParent).childIndices) :
    k ∈ ((appendAt ps j i).getD j' defaultParent).childIndices := by
  induction ps generalizing j j' with
  | nil => exact hk
  | cons p rest ih =>
    cases j with
    | zero => cases j' with
      | zero => exact List.mem_append_left _ hk
      | succ j' => exact hk
    | succ j => cases j' with
      | zero => exact hk
      | succ j' => exact ih j j' hk

theorem appendAt_self_mem (ps : List ParentRec) (j i : Nat) (hj : j < ps.length) :
    i ∈ ((appendAt ps j i).getD j defaultParent).childIndices := by
  induction ps generalizing j with
  | nil => exact absurd hj (Nat.not_lt_zero j)
  | cons p rest ih =>
    cases j with
    | zero => exact List.mem_append_right _ (List.mem_singleton_self i)
    | succ j => exact ih j (Nat.lt_of_succ_lt_succ hj)

theorem joinChildIdx_cons (p : ParentRec) (ps : List ParentRec) :
    joinChildIdx (p :: ps) = p.childIndices ++ joinChildIdx ps := by
  unfold joinChildIdx
  rw [List.map_cons, List.flatten_cons]

theorem mem_joinChildIdx (ps : List ParentRec) (k : Nat) :
    k ∈ joinChildIdx ps ↔ ∃ p ∈ ps, k ∈ p.childIndices := by
  unfold joinChildIdx
  rw [List.mem_flatten]
  constructor
  · rintro ⟨l, hl, hk⟩
    rcases List.mem_map.mp hl with ⟨p, hp, rfl⟩
    exact ⟨p, hp, hk⟩
  · rintro ⟨p, hp, hk⟩
    exact ⟨p.childIndices, List.mem_map_of_mem _ hp, hk⟩

theorem appendAt_joinChildIdx (ps : List ParentRec) (j i : Nat) (hj : j < ps.length)
    (k : Nat) :
    (k ∈ joinChildIdx (appendAt ps j i) ↔ k ∈ joinChildIdx ps ∨ k = i) := by
  induction ps generalizing j with
  | nil => exact absurd hj (Nat.not_lt_zero j)
  | cons p rest ih =>
    cases j with
    | zero =>
      show k ∈ joinChildIdx ({ p with childIndices := p.childIndices ++ [i] } :: rest) ↔ _
      rw [joinChildIdx_cons, joinChildIdx_cons]
      simp only [List.mem_append, List.mem_singleton]
      tauto
    | succ j =>
      show k ∈ joinChildIdx (p :: appendAt rest j i) ↔ _
      rw [joinChildIdx_cons, joinChildIdx_cons]
      simp only [List.mem_append, ih j (Nat.lt_of_succ_lt_succ hj)]
      tauto

theorem mkParents_length (i : Nat) (ts : List Text) :
    (mkParents i ts).length = ts.length := by
  induction ts generalizing i with
  | nil => rfl
  | cons t rest ih => show (mkParents (i+1) rest).length + 1 = rest.length + 1; rw [ih]

theorem mkParents_ne_nil (i : Nat) (ts : List Text) (h : ts ≠ []) :
    mkParents i ts ≠ [] := by
  cases ts with
  | nil => exact absurd rfl h
  | cons t rest => simp [mkParents]

theorem mkParents_getD_id (ts : List Text) :
    ∀ (i j : Nat), j < ts.length →
      ((mkParents i ts).getD j defaultParent).id = "parent_" ++ toString (i + j) := by
  induction ts with
  | nil => intro i j h; exact absurd h (Nat.not_lt_zero j)
  | cons t rest ih =>
    intro i j hj
    cases j with
    | zero => rw [Nat.add_zero]; rfl
    | succ j =>
      show ((mkParents (i+1) rest).getD j defaultParent).id = _
      rw [ih (i+1) j (Nat.lt_of_succ_lt_succ hj),
        show i + 1 + j = i + (j+1) from by omega]

theorem mkParents_join (i : Nat) (ts : List Text) :
    joinChildIdx (mkParents i ts) = [] := by
  induction ts generalizing i with
  | nil => rfl
  | cons t rest ih =>
    show joinChildIdx (⟨_, _, []⟩ :: mkParents (i+1) rest) = []
    rw [joinChildIdx_cons, ih]
    rfl

theorem hierStep_on (cfg : Config) (base : Dict) (parents : List ParentRec) (i : Nat)
    (hcf : cfg.useHierarchy = true) (hne : parents ≠ []) :
    hierStep cfg base parents i =
      (dset base "parent_id"
         (Val.s (parents.getD (min (i / 2) (parents.length - 1)) defaultParent).id),
       appendAt parents (min (i / 2) (parents.length - 1)) i) := by
  cases parents with
  | nil => exact absurd rfl hne
  | cons p ps => simp [hierStep, hcf]

theorem hierStep_dget (cfg : Config) (base : Dict) (parents : List ParentRec)
    (i : Nat) (k : String) (hk : k ≠ "parent_id") :
    dget (hierStep cfg base parents i).1 k = dget base k := by
  unfold hierStep
  split
  · exact dget_dset_ne _ _ _ _ hk
  · rfl

theorem hierStep_parent_id (cfg : Config) (base : Dict) (parents : List ParentRec)
    (i : Nat) (hcf : cfg.useHierarchy = true) (hne : parents ≠ []) :
    dget (hierStep cfg base parents i).1 "parent_id"
      = some (Val.s (parents.getD (min (i / 2) (parents.length - 1)) defaultParent).id) := by
  rw [hierStep_on cfg base parents i hcf hne]
  exact dget_dset_self _ _ _

theorem hierStep_snd_length (cfg : Config) (base : Dict) (parents : List ParentRec)
    (i : Nat) : (hierStep cfg base parents i).2.length = parents.length := by
  unfold hierStep
  split
  · exact appendAt_length _ _ _
  · rfl

theorem hierStep_snd_id (cfg : Config) (base : Dict) (parents : List ParentRec)
    (i j : Nat) :
    ((hierStep cfg base parents i).2.getD j defaultParent).id
      = (parents.getD j defaultParent).id := by
  unfold hierStep
  split
  · exact appendAt_getD_id _ _ _ _
  · rfl

theorem hierStep_snd_mem (cfg : Config) (base : Dict) (parents : List ParentRec)
    (i j k : Nat) (hk : k ∈ (parents.getD j defaultParent).childIndices) :
    k ∈ ((hierStep cfg base parents i).2.getD j defaultParent).childIndices := by
  unfold hierStep
  split
  · exact appendAt_mem_childIndices _ _ _ _ _ hk
  · exact hk

theorem hierStep_snd_ne_nil (cfg : Config) (base : Dict) (parents : List ParentRec)
    (i : Nat) (hne : parents ≠ []) : (hierStep cfg base parents i).2 ≠ [] := by
  apply List.ne_nil_of_length_pos
  rw [hierStep_snd_length]
  exact List.length_pos.mpr hne

/-! ## buildDocs parent-threading lemmas -/

theorem buildDocs_parents_length (cfg : Config) (cl : Collab) (md : Dict) (total : Nat) :
    ∀ (chunks : List Text) (i : Nat) (parents : List ParentRec),
      ((buildDocs cfg cl md total i chunks parents).2).length = parents.length := by
  intro chunks
  induction chunks with
  | nil => intro i parents; rfl
  | cons chunk rest ih =>
    intro i parents
    rw [buildDocs_cons_snd, ih, hierStep_snd_length]

theorem buildDocs_parents_id (cfg : Config) (cl : Collab) (md : Dict) (total : Nat) :
    ∀ (chunks : List Text) (i : Nat) (parents : List ParentRec) (j : Nat),
      (((buildDocs cfg cl md total i chunks parents).2).getD j defaultParent).id
        = (parents.getD j defaultParent).id := by
  intro chunks
  induction chunks with
  | nil => intro i parents j; rfl
  | cons chunk rest ih =>
    intro i parents j
    rw [buildDocs_cons_snd, ih, hierStep_snd_id]

theorem buildDocs_parents_mem (cfg : Config) (cl : Collab) (md : Dict) (total : Nat) :
    ∀ (chunks : List Text) (i : Nat) (parents : List ParentRec) (j k : Nat),
      k ∈ (parents.getD j defaultParent).childIndices →
      k ∈ (((buildDocs cfg cl md total i chunks parents).2).getD j defaultParent).childIndices := by
  intro chunks
  induction chunks with
  | nil => intro i parents j k hk; exact hk
  | cons chunk rest ih =>
    intro i parents j k hk
    rw [buildDocs_cons_snd]
    exact ih (i+1) _ j k (hierStep_snd_mem cfg _ parents i j k hk)

theorem buildDocs_assign (cfg : Config) (cl : Collab) (md : Dict) (total : Nat)
    (hcf : cfg.useHierarchy = true) :
    ∀ (chunks : List Text) (i : Nat) (parents : List ParentRec), parents ≠ [] →
      ∀ k, i ≤ k → k < i + chunks.length →
        k ∈ (((buildDocs cfg cl md total i chunks parents).2).getD
              (min (k / 2) (parents.length - 1)) defaultParent).childIndices := by
  intro chunks
  induction chunks with
  | nil =>
    intro i parents _ k h1 h2
    rw [List.length_nil] at h2
    exact absurd h2 (by omega)
  | cons chunk rest ih =>
    intro i parents hne k h1 h2
    rw [List.length_cons] at h2
    have hpos : 0 < parents.length := List.length_pos.mpr hne
    have hsnd : (hierStep cfg (childBaseMd cfg cl md total i chunk) parents i).2
        = appendAt parents (min (i / 2) (parents.length - 1)) i := by
      rw [hierStep_on cfg _ parents i hcf hne]
    rw [buildDocs_cons_snd, hsnd]
    have hne1 : appendAt parents (min (i / 2) (parents.length - 1)) i ≠ [] := by
      apply List.ne_nil_of_length_pos
      rw [appendAt_length]
      exact hpos
    by_cases hk : k = i
    · subst hk
      exact buildDocs_parents_mem cfg cl md total rest (k+1) _ _ k
        (appendAt_self_mem parents _ k
          (lt_of_le_of_lt (Nat.min_le_right _ _) (by omega)))
    · have := ih (i+1) _ hne1 k (by omega) (by omega)
      rw [appendAt_length] at this
      exact this

theorem buildDocs_join (cfg : Config) (cl : Collab) (md : Dict) (total : Nat)
    (hcf : cfg.useHierarchy = true) :
    ∀ (chunks : List Text) (i : Nat) (parents : List ParentRec), parents ≠ [] →
      ∀ k, (k ∈ joinChildIdx ((buildDocs cfg cl md total i chunks parents).2) ↔
        k ∈ joinChildIdx parents ∨ (i ≤ k ∧ k < i + chunks.length)) := by
  intro chunks
  induction chunks with
  | nil =>
    intro i parents _ k
    rw [List.length_nil]
    constructor
    · intro h; exact Or.inl h
    · rintro (h | ⟨h1, h2⟩)
      · exact h
      · exact absurd h2 (by omega)
  | cons chunk rest ih =>
    intro i parents hne k
    rw [List.length_cons]
    have hpos : 0 < parents.length := List.length_pos.mpr hne
    have hsnd : (hierStep cfg (childBaseMd cfg cl md total i chunk) parents i).2
        = appendAt parents (min (i / 2) (parents.length - 1)) i := by
      rw [hierStep_on cfg _ parents i hcf hne]
    have hne1 : appendAt parents (min (i / 2) (parents.length - 1)) i ≠ [] := by
      apply List.ne_nil_of_length_pos
      rw [appendAt_length]
      exact hpos
    rw [buildDocs_cons_snd, hsnd, ih (i+1) _ hne1 k,
      appendAt_joinChildIdx parents _ i
        (lt_of_le_of_lt (Nat.min_le_right _ _) (by omega)) k]
    constructor
    · rintro ((h | rfl) | ⟨h1, h2⟩)
      · exact Or.inl h
      · exact Or.inr ⟨le_refl _, by omega⟩
      · exact Or.inr ⟨by omega, by omega⟩
    · rintro (h | ⟨h1, h2⟩)
      · exact Or.inl (Or.inl h)
      · by_cases hk : k = i
        · exact Or.inl (Or.inr hk)
        · exact Or.inr ⟨by omega, by omega⟩

theorem childBaseMd_chunk_index (cfg : Config) (cl : Collab) (md : Dict)
    (total i : Nat) (chunk : Text) :
    dget (childBaseMd cfg cl md total i chunk) "chunk_index" = some (Val.n i) := by
  show dget (dset (dset (dset (dset (dset md "chunk_id" _) "chunk_index" _)
      "total_chunks" _) "token_count" _) "chunk_type" _) "chunk_index" = _
  rw [dget_dset_ne _ _ _ _ (by decide), dget_dset_ne _ _ _ _ (by decide),
    dget_dset_ne _ _ _ _ (by decide), dget_dset_self]

theorem buildDocs_child_meta (cfg : Config) (cl : Collab) (md : Dict) (total : Nat)
    (hcf : cfg.useHierarchy = true) :
    ∀ (chunks : List Text) (i : Nat) (parents : List ParentRec), parents ≠ [] →
      ∀ d ∈ (buildDocs cfg cl md total i chunks parents).1,
        ∃ k, i ≤ k ∧ k < i + chunks.length ∧
          dget d.metadata "chunk_index" = some (Val.n k) ∧
          dget d.metadata "parent_id"
            = some (Val.s ((parents.getD (min (k / 2) (parents.length - 1))
                defaultParent).id)) := by
  intro chunks
  induction chunks with
  | nil => intro i parents _ d hd; exact absurd hd (List.not_mem_nil d)
  | cons chunk rest ih =>
    intro i parents hne d hd
    rw [buildDocs_cons_fst, List.mem_cons] at hd
    rcases hd with rfl | hd
    · refine ⟨i, le_refl i, by rw [List.length_cons]; omega, ?_, ?_⟩
      · show dget (hierStep cfg (childBaseMd cfg cl md total i chunk) parents i).1
            "chunk_index" = _
        rw [hierStep_dget _ _ _ _ _ (by decide), childBaseMd_chunk_index]
      · exact hierStep_parent_id cfg _ parents i hcf hne
    · have hsnd : (hierStep cfg (childBaseMd cfg cl md total i chunk) parents i).2
          = appendAt parents (min (i / 2) (parents.length - 1)) i := by
        rw [hierStep_on cfg _ parents i hcf hne]
      rw [hsnd] at hd
      have hne1 : appendAt parents (min (i / 2) (parents.length - 1)) i ≠ [] := by
        apply List.ne_nil_of_length_pos
        rw [appendAt_length]
        exact List.length_pos.mpr hne
      obtain ⟨k, h1, h2, h3, h4⟩ := ih (i+1) _ hne1 d hd
      rw [appendAt_length parents] at h4
      rw [appendAt_getD_id parents _ i] at h4
      exact ⟨k, by omega, by rw [List.length_cons]; omega, h3, h4⟩

theorem mkParentDoc_chunk_id (cl : Collab) (md : Dict) (p : ParentRec) :
    dget (mkParentDoc cl md p).metadata "chunk_id" = some (Val.s p.id) := by
  show dget (dset (dset (dset (dset md "chunk_id" _) "chunk_type" _)
      "child_indices" _) "token_count" _) "chunk_id" = _
  rw [dget_dset_ne _ _ _ _ (by decide), dget_dset_ne _ _ _ _ (by decide),
    dget_dset_ne _ _ _ _ (by decide), dget_dset_self]

theorem mkParentDoc_child_indices (cl : Collab) (md : Dict) (p : ParentRec) :
    dget (mkParentDoc cl md p).metadata "child_indices" = some (Val.ns p.childIndices) := by
  show dget (dset (dset (dset (dset md "chunk_id" _) "chunk_type" _)
      "child_indices" _) "token_count" _) "child_indices" = _
  rw [dget_dset_ne _ _ _ _ (by decide), dget_dset_self]

/-- With hierarchy enabled, the output of `preprocess_transcript` is the
child documents followed by the assembled parent documents. -/
theorem preprocess_hier_docs (cfg : Config) (cl : Collab) (t : Text) (md : Dict)
    (hcf : cfg.useHierarchy = true) :
    preprocess_transcript cfg cl t md
      = hierChildDocs cfg cl t md
        ++ (hierParentsFinal cfg cl t md).map (mkParentDoc cl md) := by
  unfold preprocess_transcript hierChildDocs hierParentsFinal
  simp only [hcf, eq_self_iff_true, if_true]

/-- Each emitted child document names an existing parent whose final
`child_indices` contain the child's index. -/
theorem hier_child_part (cfg : Config) (cl : Collab) (t : Text) (md : Dict)
    (hcf : cfg.useHierarchy = true)
    (hp : cl.parentSplit (preprocess_text t) ≠ []) :
    ∀ d ∈ preprocess_transcript cfg cl t md, isParentDoc d = false →
      ∃ k pid, dget d.metadata "chunk_index" = some (Val.n k) ∧
        dget d.metadata "parent_id" = some (Val.s pid) ∧
        ∃ p, p ∈ preprocess_transcript cfg cl t md ∧ isParentDoc p = true ∧
          dget p.metadata "chunk_id" = some (Val.s pid) ∧
          ∃ l, dget p.metadata "child_indices" = some (Val.ns l) ∧ k ∈ l := by
  intro d hd hnp
  have hP0ne : mkParents 0 (cl.parentSplit (preprocess_text t)) ≠ [] :=
    mkParents_ne_nil 0 _ hp
  have hpos0 : 0 < (cl.parentSplit (preprocess_text t)).length := List.length_pos.mpr hp
  rw [preprocess_hier_docs cfg cl t md hcf, List.mem_append] at hd
  rcases hd with hd | hd
  swap
  · rcases List.mem_map.mp hd with ⟨pr, _, rfl⟩
    rw [mkParentDoc_is_parent] at hnp
    exact absurd hnp (by decide)
  · unfold hierChildDocs at hd
    obtain ⟨k, hk0, hk1, hidx, hpid⟩ :=
      buildDocs_child_meta cfg cl md (pipeline_chunks cfg cl t).length hcf
        (pipeline_chunks cfg cl t) 0 (mkParents 0 (cl.parentSplit (preprocess_text t)))
        hP0ne d hd
    rw [mkParents_length] at hpid
    refine ⟨k, _, hidx, hpid, ?_⟩
    have hjlt : min (k / 2) ((cl.parentSplit (preprocess_text t)).length - 1)
        < (hierParentsFinal cfg cl t md).length := by
      unfold hierParentsFinal
      rw [buildDocs_parents_length, mkParents_length]
      exact lt_of_le_of_lt (Nat.min_le_right _ _) (by omega)
    refine ⟨mkParentDoc cl md ((hierParentsFinal cfg cl t md).getD
        (min (k / 2) ((cl.parentSplit (preprocess_text t)).length - 1)) defaultParent),
      ?_, mkParentDoc_is_parent cl md _, ?_, ?_⟩
    · rw [preprocess_hier_docs cfg cl t md hcf]
      apply List.mem_append_right
      apply List.mem_map_of_mem
      rw [List.getD_eq_getElem _ defaultParent hjlt]
      exact List.getElem_mem hjlt
    · rw [mkParentDoc_chunk_id]
      unfold hierParentsFinal
      rw [buildDocs_parents_id]
    · refine ⟨_, mkParentDoc_child_indices cl md _, ?_⟩
      unfold hierParentsFinal
      have := buildDocs_assign cfg cl md (pipeline_chunks cfg cl t).length hcf
        (pipeline_chunks cfg cl t) 0 _ hP0ne k (Nat.zero_le k) (by omega)
      rw [mkParents_length] at this
      exact this

/-- The union of the emitted parents' `child_indices` is exactly the full
child index range. -/
theorem hier_union_part (cfg : Config) (cl : Collab) (t : Text) (md : Dict)
    (hcf : cfg.useHierarchy = true)
    (hp : cl.parentSplit (preprocess_text t) ≠ []) :
    ∀ k : Nat,
      (∃ p, p ∈ preprocess_transcript cfg cl t md ∧ isParentDoc p = true ∧
        ∃ l, dget p.metadata "child_indices" = some (Val.ns l) ∧ k ∈ l)
        ↔ k < (pipeline_chunks cfg cl t).length := by
  intro k
  have hP0ne : mkParents 0 (cl.parentSplit (preprocess_text t)) ≠ [] :=
    mkParents_ne_nil 0 _ hp
  have hpos0 : 0 < (cl.parentSplit (preprocess_text t)).length := List.length_pos.mpr hp
  constructor
  · rintro ⟨p, hmem, hpar, l, hl, hkl⟩
    rw [preprocess_hier_docs cfg cl t md hcf, List.mem_append] at hmem
    rcases hmem with hmem | hmem
    · unfold hierChildDocs at hmem
      have := buildDocs_not_parent cfg cl md _ _ 0 _ p hmem
      rw [hpar] at this
      exact absurd this (by decide)
    · rcases List.mem_map.mp hmem with ⟨pr, hpr, rfl⟩
      have hci := mkParentDoc_child_indices cl md pr
      rw [hci] at hl
      have hlpr : pr.childIndices = l := by
        injection hl with h1
        injection h1 with h2
      have hjoin : k ∈ joinChildIdx (hierParentsFinal cfg cl t md) :=
        (mem_joinChildIdx _ k).mpr ⟨pr, hpr, hlpr ▸ hkl⟩
      unfold hierParentsFinal at hjoin
      have hrange := (buildDocs_join cfg cl md _ hcf _ 0 _ hP0ne k).mp hjoin
      rcases hrange with h | ⟨_, h2⟩
      · rw [mkParents_join] at h
        exact absurd h (List.not_mem_nil k)
      · omega
  · intro hk
    have hjlt : min (k / 2) ((cl.parentSplit (preprocess_text t)).length - 1)
        < (hierParentsFinal cfg cl t md).length := by
      unfold hierParentsFinal
      rw [buildDocs_parents_length, mkParents_length]
      exact lt_of_le_of_lt (Nat.min_le_right _ _) (by omega)
    refine ⟨mkParentDoc cl md ((hierParentsFinal cfg cl t md).getD
        (min (k / 2) ((cl.parentSplit (preprocess_text t)).length - 1)) defaultParent),
      ?_, mkParentDoc_is_parent cl md _, _, mkParentDoc_child_indices cl md _, ?_⟩
    · rw [preprocess_hier_docs cfg cl t md hcf]
      apply List.mem_append_right
      apply List.mem_map_of_mem
      rw [List.getD_eq_getElem _ defaultParent hjlt]
      exact List.getElem_mem hjlt
    · unfold hierParentsFinal
      have := buildDocs_assign cfg cl md (pipeline_chunks cfg cl t).length hcf
        (pipeline_chunks cfg cl t) 0 _ hP0ne k (Nat.zero_le k) (by omega)
      rw [mkParents_length] at this
      exact this

/-! ## Claim C5 — hierarchy coverage -/

/-- C5: with hierarchy enabled (and the parent splitter returning at least
one parent span, as it does on any text the run emits children from),
every emitted child document carries a `parent_id` naming a parent
document present in the same output, the child's `chunk_index` is a member
of that parent's `child_indices`, and the union of all emitted parents'
`child_indices` is exactly the full child index range `0 .. n-1` with no
gaps. -/
theorem C5_hierarchy_coverage (cfg : Config) (cl : Collab) (t : Text) (md : Dict)
    (hcf : cfg.useHierarchy = true)
    (hp : cl.parentSplit (preprocess_text t) ≠ []) :
    (∀ d ∈ preprocess_transcript cfg cl t md, isParentDoc d = false →
      ∃ k pid, dget d.metadata "chunk_index" = some (Val.n k) ∧
        dget d.metadata "parent_id" = some (Val.s pid) ∧
        ∃ p, p ∈ preprocess_transcript cfg cl t md ∧ isParentDoc p = true ∧
          dget p.metadata "chunk_id" = some (Val.s pid) ∧
          ∃ l, dget p.metadata "child_indices" = some (Val.ns l) ∧ k ∈ l) ∧
    (∀ k : Nat,
      (∃ p, p ∈ preprocess_transcript cfg cl t md ∧ isParentDoc p = true ∧
        ∃ l, dget p.metadata "child_indices" = some (Val.ns l) ∧ k ∈ l)
        ↔ k < (pipeline_chunks cfg cl t).length) :=
  ⟨hier_child_part cfg cl t md hcf hp, hier_union_part cfg cl t md hcf hp⟩

/-- C5 (witness): a concrete hierarchy-enabled run; index 0 is covered by a
parent exactly because one child chunk is emitted. -/
theorem C5_hierarchy_coverage_wit :
    (∃ p, p ∈ preprocess_transcript cfgB clLen (String.toList "abc") [] ∧
      isParentDoc p = true ∧
      ∃ l, dget p.metadata "child_indices" = some (Val.ns l) ∧ 0 ∈ l)
      ↔ 0 < (pipeline_chunks cfgB clLen (String.toList "abc")).length :=
  (C5_hierarchy_coverage cfgB clLen (String.toList "abc") [] rfl (by decide)).2 0

/-! ## Claim C9 — retrieval deduplication and serialization -/

theorem dedupSpec_cons (d : Document) (rest : List Document) :
    dedupSpec (d :: rest)
      = d :: dedupSpec (rest.filter
          (fun e => pyStrip e.page_content ≠ pyStrip d.page_content)) := by
  rw [dedupSpec]

theorem dedupLoop_cons_mem (seen : List Text) (e : Document) (rest : List Document)
    (h : pyStrip e.page_content ∈ seen) :
    dedupLoop seen (e :: rest) = dedupLoop seen rest := by
  show (if pyStrip e.page_content ∈ seen then dedupLoop seen rest
        else e :: dedupLoop (pyStrip e.page_content :: seen) rest) = _
  rw [if_pos h]

theorem dedupLoop_cons_new (seen : List Text) (e : Document) (rest : List Document)
    (h : pyStrip e.page_content ∉ seen) :
    dedupLoop seen (e :: rest)
      = e :: dedupLoop (pyStrip e.page_content :: seen) rest := by
  show (if pyStrip e.page_content ∈ seen then dedupLoop seen rest
        else e :: dedupLoop (pyStrip e.page_content :: seen) rest) = _
  rw [if_neg h]

/-- The seen-set loop of the source agrees with the spec's formulation of
deduplication (keep a document iff no earlier one has the same stripped
content). -/
theorem dedupLoop_eq_spec :
    ∀ (docs : List Document) (seen : List Text),
      dedupLoop seen docs
        = dedupSpec (docs.filter (fun d => decide (pyStrip d.page_content ∉ seen))) := by
  intro docs
  induction docs with
  | nil => intro seen; rw [List.filter_nil, dedupSpec]; rfl
  | cons d rest ih =>
    intro seen
    by_cases h : pyStrip d.page_content ∈ seen
    · rw [dedupLoop_cons_mem seen d rest h, ih seen, List.filter_cons_of_neg (by simp [h])]
    · rw [dedupLoop_cons_new seen d rest h, ih (pyStrip d.page_content :: seen),
        List.filter_cons_of_pos (by simp [h]), dedupSpec_cons, List.filter_filter]
      congr 1
      apply congrArg
      apply List.filter_congr
      intro e _
      by_cases h1 : pyStrip e.page_content = pyStrip d.page_content <;>
        by_cases h2 : pyStrip e.page_content ∈ seen <;>
          simp [h1, h2, List.mem_cons]

theorem dedupLoop_not_mem_seen :
    ∀ (docs : List Document) (seen : List Text) (d : Document),
      d ∈ dedupLoop seen docs → pyStrip d.page_content ∉ seen := by
  intro docs
  induction docs with
  | nil => intro seen d hd; exact absurd hd (List.not_mem_nil d)
  | cons e rest ih =>
    intro seen d hd
    by_cases h : pyStrip e.page_content ∈ seen
    · rw [dedupLoop_cons_mem seen e rest h] at hd
      exact ih seen d hd
    · rw [dedupLoop_cons_new seen e rest h] at hd
      rcases List.mem_cons.mp hd with rfl | hd
      · exact h
      · intro hmem
        exact ih _ d hd (List.mem_cons_of_mem _ hmem)

/-- The deduplicated document list has pairwise distinct stripped
contents. -/
theorem dedupLoop_pairwise :
    ∀ (docs : List Document) (seen : List Text),
      (dedupLoop seen docs).Pairwise
        (fun a b => pyStrip a.page_content ≠ pyStrip b.page_content) := by
  intro docs
  induction docs with
  | nil => intro seen; exact List.Pairwise.nil
  | cons e rest ih =>
    intro seen
    by_cases h : pyStrip e.page_content ∈ seen
    · rw [dedupLoop_cons_mem seen e rest h]
      exact ih seen
    · rw [dedupLoop_cons_new seen e rest h]
      refine List.Pairwise.cons ?_ (ih _)
      intro b hb heq
      exact dedupLoop_not_mem_seen rest (pyStrip e.page_content :: seen) b hb
        (by rw [← heq]; exact List.mem_cons_self _ _)

/-- C9: on a loaded store, `_retrieve_context` returns exactly the
spec-modelled serialization — blocks
`Source: <title> | Chunk: <chunk_id>` newline `Content: <text>` joined by
blank lines over the hash-deduplicated children-then-parents document
list — and no two documents of that deduplicated list carry equal chunk
content. -/
theorem C9_retrieval_dedup_format (st : VectorStore) (q : String) (k : Nat) :
    retrieve_context (some st) q k = retrieveContextSpec st q k ∧
    (dedupSpec (allRetrievedDocs st q k)).Pairwise
      (fun a b => a.page_content ≠ b.page_content) := by
  have hfilter : (allRetrievedDocs st q k).filter
      (fun d => decide (pyStrip d.page_content ∉ ([] : List Text)))
      = allRetrievedDocs st q k :=
    List.filter_eq_self.mpr (fun d _ => by simp)
  have heq : dedupLoop [] (allRetrievedDocs st q k) = dedupSpec (allRetrievedDocs st q k) := by
    rw [dedupLoop_eq_spec, hfilter]
  constructor
  · show List.intercalate (String.toList "\n\n")
        ((dedupLoop [] (allRetrievedDocs st q k)).map blockOf) = _
    rw [heq]
    rfl
  · rw [← heq]
    exact (dedupLoop_pairwise _ []).imp (fun hab heq2 => hab (by rw [heq2]))

/-! ## Claim C10 — the caller's metadata dict is never mutated -/

theorem hierStepStore_fst_frame (cfg : Config) (base : Dict) (parents : List ParentRec)
    (i : Nat) (st : DStore) (a : Nat) (ha : a < st.length) :
    (hierStepStore cfg base parents i st).1[a]? = st[a]? := by
  unfold hierStepStore
  split
  · rw [List.getElem?_set_ne (by omega), List.getElem?_append_left ha]
  · rw [List.getElem?_append_left ha]

theorem hierStepStore_fst_length (cfg : Config) (base : Dict) (parents : List ParentRec)
    (i : Nat) (st : DStore) :
    (hierStepStore cfg base parents i st).1.length = st.length + 1 := by
  unfold hierStepStore
  split
  · rw [List.length_set, List.length_append, List.length_singleton]
  · rw [List.length_append, List.length_singleton]

theorem buildDocsStore_frame (cfg : Config) (cl : Collab) (mdAddr total : Nat) :
    ∀ (chunks : List Text) (i : Nat) (parents : List ParentRec) (st : DStore) (a : Nat),
      a < st.length →
      (buildDocsStore cfg cl mdAddr total i chunks parents st).1[a]? = st[a]? := by
  intro chunks
  induction chunks with
  | nil => intro i parents st a _; rfl
  | cons chunk rest ih =>
    intro i parents st a ha
    show (buildDocsStore cfg cl mdAddr total (i+1) rest
      (hierStepStore cfg (childBaseMd cfg cl (st.getD mdAddr []) total i chunk)
        parents i st).2
      (hierStepStore cfg (childBaseMd cfg cl (st.getD mdAddr []) total i chunk)
        parents i st).1).1[a]? = st[a]?
    rw [ih (i+1) _ _ a (by rw [hierStepStore_fst_length]; omega),
      hierStepStore_fst_frame cfg _ parents i st a ha]

theorem buildDocsStore_length_le (cfg : Config) (cl : Collab) (mdAddr total : Nat) :
    ∀ (chunks : List Text) (i : Nat) (parents : List ParentRec) (st : DStore),
      st.length ≤ (buildDocsStore cfg cl mdAddr total i chunks parents st).1.length := by
  intro chunks
  induction chunks with
  | nil => intro i parents st; exact Nat.le_refl _
  | cons chunk rest ih =>
    intro i parents st
    show st.length ≤ (buildDocsStore cfg cl mdAddr total (i+1) rest
      (hierStepStore cfg (childBaseMd cfg cl (st.getD mdAddr []) total i chunk)
        parents i st).2
      (hierStepStore cfg (childBaseMd cfg cl (st.getD mdAddr []) total i chunk)
        parents i st).1).1.length
    refine Nat.le_trans ?_ (ih (i+1) _ _)
    rw [hierStepStore_fst_length]
    omega

theorem parentDocsStore_frame (cl : Collab) (mdAddr : Nat) :
    ∀ (ps : List ParentRec) (st : DStore) (a : Nat), a < st.length →
      (parentDocsStore cl mdAddr ps st).1[a]? = st[a]? := by
  intro ps
  induction ps with
  | nil => intro st a _; rfl
  | cons p rest ih =>
    intro st a ha
    show (parentDocsStore cl mdAddr rest
      (st ++ [dupdate (st.getD mdAddr [])
        [("chunk_id", Val.s p.id), ("chunk_type", Val.s "parent"),
         ("child_indices", Val.ns p.childIndices),
         ("token_count", Val.n (cl.tok p.content))]])).1[a]? = st[a]?
    rw [ih _ a (by rw [List.length_append, List.length_singleton]; omega),
      List.getElem?_append_left ha]

/-- C10: `preprocess_transcript` never mutates the caller's metadata
dictionary.  In the store model — where every dict operation of the source
(the per-chunk `metadata.copy()`, the `update` calls, and the `parent_id`
assignment) is an explicit read, allocation or write — the dict object at
the metadata argument's address is unchanged by the whole run: every write
targets a freshly allocated copy. -/
theorem C10_no_metadata_mutation (cfg : Config) (cl : Collab) (t : Text)
    (st : DStore) (mdAddr : Nat) (h : mdAddr < st.length) :
    (preprocess_transcript_store cfg cl t st mdAddr).1[mdAddr]? = st[mdAddr]? := by
  simp only [preprocess_transcript_store]
  split
  · rw [parentDocsStore_frame cl mdAddr _ _ mdAddr
        (Nat.lt_of_lt_of_le h (buildDocsStore_length_le cfg cl mdAddr _ _ 0 _ st)),
      buildDocsStore_frame cfg cl mdAddr _ _ 0 _ st mdAddr h]
  · rw [buildDocsStore_frame cfg cl mdAddr _ _ 0 _ st mdAddr h]

/-- C10 (witness): a concrete run leaves the metadata object bit-for-bit
unchanged in the store. -/
theorem C10_no_metadata_mutation_wit :
    (preprocess_transcript_store cfgB clLen (String.toList "abc")
        [[("title", Val.s "T")]] 0).1[0]? = some [("title", Val.s "T")] :=
  (C10_no_metadata_mutation cfgB clLen (String.toList "abc")
    [[("title", Val.s "T")]] 0 (by decide)).trans (by decide)

end KMA
